import Mathlib

/-!
Verification of the arithmetic evaluator in `src/src/calculator.cpp`
(`Calculator::add`, `Calculator::subtract`, `Calculator::multiply`,
`Calculator::divide`).

The C++ operands are 32-bit signed `int`s; we embed them as integers
normalised to the range `[-2^31, 2^31)` with two's-complement wraparound
(`wrap`).  `divide` converts both operands to IEEE-754 binary64 and divides;
we embed binary64 values as exact rationals together with the special values
(`F64`), and floating-point rounding as round-to-nearest-even on rationals
(`roundQ`).  `Calculator::divide` throws `std::invalid_argument("Division by
zero")` on a zero divisor; we embed the result type as `Except CalcError`.
The `Calculator` class is stateless (no fields), which the empty structure
mirrors; a small trace semantics (`execCall`, `runCalls`) makes the
statelessness claims expressible.
-/

/-- Two's-complement wraparound to the 32-bit signed range `[-2^31, 2^31)`,
the semantics of the C++ `int` arithmetic used by the calculator. -/
def wrap (z : ℤ) : ℤ := (z + 2 ^ 31) % 2 ^ 32 - 2 ^ 31

/-- `z` is a representable 32-bit signed integer value. -/
def inRange (z : ℤ) : Prop := -(2 ^ 31) ≤ z ∧ z < 2 ^ 31

instance (z : ℤ) : Decidable (inRange z) := by
  unfold inRange; infer_instance

/-- Round-to-nearest-even of a rational to an integer (the tie-breaking rule
of IEEE-754 binary64 arithmetic). -/
def rne (q : ℚ) : ℤ :=
  if q - ⌊q⌋ < 1 / 2 then ⌊q⌋
  else if 1 / 2 < q - ⌊q⌋ then ⌊q⌋ + 1
  else if ⌊q⌋ % 2 = 0 then ⌊q⌋ else ⌊q⌋ + 1

/-- Round a rational to the nearest IEEE-754 binary64 value, expressed as an
exact rational: the significand is rounded to 53 bits at the exponent of the
input (clamped below at the subnormal exponent `-1074`). -/
def roundQ (q : ℚ) : ℚ :=
  if q = 0 then 0
  else
    let e : ℤ := max (Int.log 2 |q| - 52) (-1074)
    (rne (q * 2 ^ (-e)) : ℚ) * 2 ^ e

/-- Largest finite binary64 value, as an exact rational. -/
def maxFinite : ℚ := (2 ^ 53 - 1) * 2 ^ 971

/-- An IEEE-754 binary64 value: a finite value (as an exact rational) or one
of the special values. -/
inductive F64 where
  | finite (val : ℚ)
  | posInf
  | negInf
  | nan
deriving DecidableEq

/-- Binary64 division: round the exact quotient, overflowing to infinity. -/
def F64.div : F64 → F64 → F64
  | .finite a, .finite b =>
    if b = 0 then
      if a = 0 then .nan else if 0 < a then .posInf else .negInf
    else
      let r := roundQ (a / b)
      if maxFinite < r then .posInf
      else if r < -maxFinite then .negInf
      else .finite r
  | _, _ => .nan

/-- The C++ `static_cast<double>` conversion of an `int` operand: round the
integer to the nearest binary64 value. -/
def intToF64 (z : ℤ) : F64 := .finite (roundQ (z : ℚ))

/-- The error signalled by the calculator: `std::invalid_argument` carrying a
message, thrown only by `Calculator::divide`. -/
inductive CalcError where
  | invalidArgument (message : String)
deriving DecidableEq

/-- The `Calculator` class of `calculator.h` / `calculator.cpp`: it declares
no data members, so its states are a single value. -/
structure Calculator where
  mk ::

/-- `Calculator::add`: `return first_value + second_value;` on `int`. -/
def Calculator.add (_self : Calculator) (first_value second_value : ℤ) : ℤ :=
  wrap (first_value + second_value)

/-- `Calculator::subtract`: `return first_value - second_value;` on `int`. -/
def Calculator.subtract (_self : Calculator) (first_value second_value : ℤ) : ℤ :=
  wrap (first_value - second_value)

/-- `Calculator::multiply`: `return first_value * second_value;` on `int`. -/
def Calculator.multiply (_self : Calculator) (first_value second_value : ℤ) : ℤ :=
  wrap (first_value * second_value)

/-- `Calculator::divide`: throws `std::invalid_argument("Division by zero")`
when `second_value == 0`, otherwise returns
`static_cast<double>(first_value) / second_value`. -/
def Calculator.divide (_self : Calculator) (first_value second_value : ℤ) :
    Except CalcError F64 :=
  if second_value = 0 then
    .error (.invalidArgument "Division by zero")
  else
    .ok (F64.div (intToF64 first_value) (intToF64 second_value))

/-- The four operations of the evaluator. -/
inductive Op where
  | add
  | subtract
  | multiply
  | divide
deriving DecidableEq

/-- A result value: a 32-bit integer (add/subtract/multiply) or a binary64
value (divide). -/
inductive Value where
  | intVal (z : ℤ)
  | doubleVal (d : F64)
deriving DecidableEq

/-- One call to the evaluator: an operation and its two operands. -/
structure Call where
  op : Op
  fst : ℤ
  snd : ℤ
deriving DecidableEq

/-- Execute one call against a calculator, returning the outcome and the
calculator afterwards (no method mutates the object). -/
def execCall (c : Calculator) (k : Call) : Except CalcError Value × Calculator :=
  match k.op with
  | .add => (.ok (.intVal (c.add k.fst k.snd)), c)
  | .subtract => (.ok (.intVal (c.subtract k.fst k.snd)), c)
  | .multiply => (.ok (.intVal (c.multiply k.fst k.snd)), c)
  | .divide => ((c.divide k.fst k.snd).map .doubleVal, c)

/-- Execute a sequence of calls, threading the calculator through. -/
def runCalls (c : Calculator) : List Call → List (Except CalcError Value) × Calculator
  | [] => ([], c)
  | k :: ks =>
    let rc := execCall c k
    let rest := runCalls rc.2 ks
    (rc.1 :: rest.1, rest.2)

/-! ### Basic lemmas about the 32-bit model -/

theorem calculator_subsingleton (c c' : Calculator) : c = c' := rfl

theorem wrap_emod (z : ℤ) : wrap z % 2 ^ 32 = z % 2 ^ 32 := by
  unfold wrap
  omega

theorem wrap_inRange (z : ℤ) : inRange (wrap z) := by
  unfold wrap inRange
  omega

theorem wrap_eq_self {z : ℤ} (h : inRange z) : wrap z = z := by
  unfold wrap
  unfold inRange at h
  omega

theorem execCall_snd (c : Calculator) (k : Call) : (execCall c k).2 = c := by
  cases k with
  | mk op a b => cases op <;> rfl

/-! ### Claims about the integer operations -/

/-- C3: for all integers `a` and `b`, `add(a, b)` returns `a + b`,
`subtract(a, b)` returns `a - b`, and `multiply(a, b)` returns `a * b`,
computed with fixed-width signed-integer semantics: each result is exact
modulo `2^32` and lies in the 32-bit signed range, with no overflow check. -/
theorem int_ops_exact_mod_wraparound (c : Calculator) (a b : ℤ) :
    c.add a b ≡ a + b [ZMOD 2 ^ 32] ∧ inRange (c.add a b) ∧
    c.subtract a b ≡ a - b [ZMOD 2 ^ 32] ∧ inRange (c.subtract a b) ∧
    c.multiply a b ≡ a * b [ZMOD 2 ^ 32] ∧ inRange (c.multiply a b) :=
  ⟨wrap_emod _, wrap_inRange _, wrap_emod _, wrap_inRange _,
    wrap_emod _, wrap_inRange _⟩

/-- C6: addition is commutative: `add(a, b) == add(b, a)` for all integers. -/
theorem add_commutative (c : Calculator) (a b : ℤ) : c.add a b = c.add b a := by
  unfold Calculator.add
  rw [Int.add_comm]

/-- C7: subtraction inverts addition: `subtract(add(a, b), b) == a` for every
32-bit value `a` and every integer `b`, exactly modulo `2^32` even when the
intermediate sum wraps around. -/
theorem subtract_inverts_add (c : Calculator) (a b : ℤ) (h : inRange a) :
    c.subtract (c.add a b) b = a := by
  unfold Calculator.subtract Calculator.add wrap
  unfold inRange at h
  omega

/-- C7 witness: the round-trip at `a = 2147483647`, `b = 1`, where the
intermediate sum overflows. -/
theorem subtract_inverts_add_witness :
    inRange 2147483647 ∧
    Calculator.mk.subtract (Calculator.mk.add 2147483647 1) 1 = 2147483647 :=
  ⟨by decide, subtract_inverts_add Calculator.mk 2147483647 1 (by decide)⟩

/-- C8: subtraction is antisymmetric under the fixed-width semantics:
`subtract(a, b)` equals the two's-complement negation of `subtract(b, a)`,
including when `subtract(b, a)` is the minimum value, whose negation wraps to
itself. -/
theorem subtract_antisymmetric (c : Calculator) (a b : ℤ) :
    c.subtract a b = wrap (-(c.subtract b a)) := by
  unfold Calculator.subtract wrap
  omega

/-- C2: `divide(a, 0)` fails with `InvalidArgument` carrying the message
"Division by zero" for every `a`, and a call to any of the four operations
errors if and only if it is a divide whose second operand is zero. -/
theorem divide_error_iff_zero_divisor (c : Calculator) (a : ℤ) :
    c.divide a 0 = .error (.invalidArgument "Division by zero") ∧
    ∀ k : Call, (∃ e, (execCall c k).1 = .error e) ↔
      (k.op = .divide ∧ k.snd = 0) := by
  refine ⟨rfl, fun k => ?_⟩
  cases hop : k.op
  case add | subtract | multiply => simp [execCall, hop]
  case divide =>
    by_cases hs : k.snd = 0 <;> simp [execCall, hop, Calculator.divide, hs, Except.map]

/-- C4: a failed divide leaves the evaluator unchanged and fully usable:
the calculator after `divide(a, 0)` is the same value, every subsequent call
behaves as on a fresh evaluator, and after `divide(10, 0)` raises its error a
subsequent `add(5, 5)` returns `10`. -/
theorem evaluator_usable_after_error (c : Calculator) (a : ℤ) :
    (execCall c ⟨.divide, a, 0⟩).1 =
      .error (.invalidArgument "Division by zero") ∧
    (execCall c ⟨.divide, a, 0⟩).2 = c ∧
    (∀ k : Call, execCall (execCall c ⟨.divide, a, 0⟩).2 k =
      execCall Calculator.mk k) ∧
    (execCall (execCall c ⟨.divide, 10, 0⟩).2 ⟨.add, 5, 5⟩).1 =
      .ok (.intVal 10) :=
  ⟨rfl, rfl, fun _ => rfl, by norm_num [execCall, Calculator.add, wrap]⟩

/-- C5: every operation is deterministic and idempotent: the outcome of a
call is a pure function of the operation and its two operands, independent of
any prior call history, and two identical consecutive calls produce two
identical outcomes. -/
theorem operations_deterministic (c c' : Calculator) (h h' : List Call)
    (k : Call) :
    (execCall (runCalls c h).2 k).1 = (execCall (runCalls c' h').2 k).1 ∧
    (runCalls c [k, k]).1 = [(execCall c k).1, (execCall c k).1] :=
  ⟨rfl, rfl⟩

/-! ### Lemmas about binary64 rounding -/

theorem rne_bounds (q : ℚ) : ⌊q⌋ ≤ rne q ∧ rne q ≤ ⌊q⌋ + 1 := by
  unfold rne
  split_ifs <;> omega

theorem rne_intCast (n : ℤ) : rne (n : ℚ) = n := by
  unfold rne
  norm_num

theorem abs_rne_le (q : ℚ) : |(rne q : ℚ)| ≤ |q| + 1 := by
  obtain ⟨h1, h2⟩ := rne_bounds q
  have c1 : ((⌊q⌋ : ℤ) : ℚ) ≤ (rne q : ℚ) := by exact_mod_cast h1
  have c2 : (rne q : ℚ) ≤ ((⌊q⌋ : ℤ) : ℚ) + 1 := by exact_mod_cast h2
  have hf1 : ((⌊q⌋ : ℤ) : ℚ) ≤ q := Int.floor_le q
  have hf2 : q - 1 < ((⌊q⌋ : ℤ) : ℚ) := Int.sub_one_lt_floor q
  have ha1 : -|q| ≤ q := neg_abs_le q
  have ha2 : q ≤ |q| := le_abs_self q
  rw [abs_le]
  constructor <;> linarith

theorem zpow_two_pos (e : ℤ) : (0 : ℚ) < 2 ^ e := zpow_pos (by norm_num) e

theorem roundQ_intCast {n : ℤ} (h : |n| ≤ 2 ^ 31) : roundQ (n : ℚ) = n := by
  rcases eq_or_ne n 0 with rfl | hn
  · simp [roundQ]
  have hn0 : ((n : ℚ)) ≠ 0 := Int.cast_ne_zero.mpr hn
  have habs1 : (1 : ℚ) ≤ |(n : ℚ)| := by
    rw [← Int.cast_abs]
    exact_mod_cast Int.one_le_abs hn
  have habs0 : (0 : ℚ) < |(n : ℚ)| := by linarith
  set L : ℤ := Int.log 2 |(n : ℚ)| with hL
  have hL0 : 0 ≤ L := by
    rw [hL, ← Int.zpow_le_iff_le_log (by norm_num) habs0]
    simpa using habs1
  have hL31 : L ≤ 31 := by
    have hle : |(n : ℚ)| ≤ ((2 : ℕ) : ℚ) ^ (31 : ℤ) := by
      rw [← Int.cast_abs]
      push_cast
      exact_mod_cast h
    calc L ≤ Int.log 2 (((2 : ℕ) : ℚ) ^ (31 : ℤ)) := Int.log_mono_right habs0 hle
    _ = 31 := Int.log_zpow (by norm_num) 31
  unfold roundQ
  rw [if_neg hn0]
  have hmax : max (L - 52) (-1074) = L - 52 := max_eq_left (by omega)
  rw [← hL, hmax]
  set k : ℕ := (52 - L).toNat with hk
  have hk52 : (k : ℤ) = 52 - L := by omega
  have hx : (n : ℚ) * 2 ^ (-(L - 52)) = ((n * 2 ^ k : ℤ) : ℚ) := by
    have : -(L - 52) = (k : ℤ) := by omega
    rw [this, zpow_natCast]
    push_cast
    ring
  show (rne ((n : ℚ) * 2 ^ (-(L - 52))) : ℚ) * 2 ^ (L - 52) = (n : ℚ)
  rw [hx, rne_intCast]
  push_cast
  rw [mul_assoc, ← zpow_natCast (2 : ℚ) k, ← zpow_add₀ (by norm_num : (2:ℚ) ≠ 0)]
  have : (k : ℤ) + (L - 52) = 0 := by omega
  rw [this, zpow_zero, mul_one]

theorem abs_roundQ_le (q : ℚ) : |roundQ q| ≤ 2 * |q| + 1 := by
  rcases eq_or_ne q 0 with rfl | hq
  · simp [roundQ]
  have habs0 : (0 : ℚ) < |q| := abs_pos.mpr hq
  unfold roundQ
  rw [if_neg hq]
  set L : ℤ := Int.log 2 |q| with hL
  set e : ℤ := max (L - 52) (-1074) with he
  have h2e : (0 : ℚ) < 2 ^ e := zpow_two_pos e
  have hxabs : |q * 2 ^ (-e)| = |q| * 2 ^ (-e) := by
    rw [abs_mul, abs_of_pos (zpow_two_pos (-e))]
  have hrne := abs_rne_le (q * 2 ^ (-e))
  have hcancel : |q| * 2 ^ (-e) * 2 ^ e = |q| := by
    rw [mul_assoc, ← zpow_add₀ (by norm_num : (2:ℚ) ≠ 0)]
    simp
  have step : |(rne (q * 2 ^ (-e)) : ℚ) * 2 ^ e| ≤ |q| + 2 ^ e := by
    rw [abs_mul, abs_of_pos h2e]
    calc |(rne (q * 2 ^ (-e)) : ℚ)| * 2 ^ e
        ≤ (|q * 2 ^ (-e)| + 1) * 2 ^ e := by
          exact mul_le_mul_of_nonneg_right hrne (le_of_lt h2e)
    _ = |q| * 2 ^ (-e) * 2 ^ e + 2 ^ e := by rw [hxabs]; ring
    _ = |q| + 2 ^ e := by rw [hcancel]
  have hePow : (2 : ℚ) ^ e ≤ |q| + 1 := by
    rcases max_cases (L - 52) (-1074) with ⟨hmax, _⟩ | ⟨hmax, _⟩
    · have h1 : (2 : ℚ) ^ e ≤ 2 ^ L := by
        rw [he, hmax]
        exact zpow_le_zpow_right₀ (by norm_num) (by omega)
      have h2 : ((2 : ℕ) : ℚ) ^ L ≤ |q| := Int.zpow_log_le_self (by norm_num) habs0
      have h2' : (2 : ℚ) ^ L ≤ |q| := by exact_mod_cast h2
      linarith
    · have h1 : (2 : ℚ) ^ e ≤ 2 ^ (0 : ℤ) := by
        rw [he, hmax]
        exact zpow_le_zpow_right₀ (by norm_num) (by omega)
      simp only [zpow_zero] at h1
      linarith
  calc |(rne (q * 2 ^ (-e)) : ℚ) * 2 ^ e| ≤ |q| + 2 ^ e := step
  _ ≤ |q| + (|q| + 1) := by linarith
  _ = 2 * |q| + 1 := by ring

/-- The key divide lemma: for in-range operands and a nonzero divisor, both
`static_cast<double>` conversions are exact and the float division neither
overflows nor produces a special value, so `divide` returns the correctly
rounded exact rational quotient. -/
theorem divide_spec (c : Calculator) (a b : ℤ) (ha : inRange a)
    (hb : inRange b) (h : b ≠ 0) :
    c.divide a b = .ok (.finite (roundQ ((a : ℚ) / (b : ℚ)))) := by
  have haabs : |a| ≤ 2 ^ 31 := abs_le.mpr (by unfold inRange at ha; omega)
  have hbabs : |b| ≤ 2 ^ 31 := abs_le.mpr (by unfold inRange at hb; omega)
  have hb0 : (b : ℚ) ≠ 0 := Int.cast_ne_zero.mpr h
  have hb1 : (1 : ℚ) ≤ |(b : ℚ)| := by
    rw [← Int.cast_abs]
    exact_mod_cast Int.one_le_abs h
  have hqabs : |(a : ℚ) / (b : ℚ)| ≤ 2 ^ 31 := by
    rw [abs_div, div_le_iff₀ (by linarith)]
    have h1 : |(a : ℚ)| ≤ 2 ^ 31 := by
      rw [← Int.cast_abs]
      exact_mod_cast haabs
    nlinarith
  have hr := abs_roundQ_le ((a : ℚ) / (b : ℚ))
  have hcmp : 2 * ((2 : ℚ) ^ 31) + 1 < maxFinite := by
    unfold maxFinite
    norm_num
  have habs1 : roundQ ((a : ℚ) / (b : ℚ)) ≤ |roundQ ((a : ℚ) / (b : ℚ))| :=
    le_abs_self _
  have habs2 : -|roundQ ((a : ℚ) / (b : ℚ))| ≤ roundQ ((a : ℚ) / (b : ℚ)) :=
    neg_abs_le _
  have hnotbig : ¬ maxFinite < roundQ ((a : ℚ) / (b : ℚ)) := by
    push_neg
    linarith
  have hnotsmall : ¬ roundQ ((a : ℚ) / (b : ℚ)) < -maxFinite := by
    push_neg
    linarith
  have hdiv : F64.div (.finite ((a : ℤ) : ℚ)) (.finite ((b : ℤ) : ℚ)) =
      .finite (roundQ ((a : ℚ) / (b : ℚ))) := by
    simp only [F64.div, if_neg hb0, if_neg hnotbig, if_neg hnotsmall]
  unfold Calculator.divide
  rw [if_neg h]
  unfold intToF64
  rw [roundQ_intCast haabs, roundQ_intCast hbabs, hdiv]

/-! ### Claims about divide -/

/-- C1: for every in-range integer `a` and nonzero in-range integer `b`,
`divide(a, b)` returns the binary64 value of `(double)a / (double)b`: both
conversions are exact and the result is the correctly rounded exact rational
quotient, not the converted integer quotient. -/
theorem divide_returns_float_quotient (c : Calculator) (a b : ℤ)
    (ha : inRange a) (hb : inRange b) (h : b ≠ 0) :
    c.divide a b = .ok (.finite (roundQ ((a : ℚ) / (b : ℚ)))) :=
  divide_spec c a b ha hb h

/-- C1 witness: `divide(7, 2)` returns the rounded quotient `7 / 2`. -/
theorem divide_returns_float_quotient_witness :
    inRange 7 ∧ inRange 2 ∧ (2 : ℤ) ≠ 0 ∧
    Calculator.mk.divide 7 2 =
      .ok (.finite (roundQ (((7 : ℤ) : ℚ) / ((2 : ℤ) : ℚ)))) :=
  ⟨by decide, by decide, by decide,
    divide_returns_float_quotient Calculator.mk 7 2 (by decide) (by decide)
      (by decide)⟩

/-- C9: for every in-range integer `a` and nonzero in-range integer `b`, the
double returned by `divide(a, b)` is a finite value, never NaN or an
infinity. -/
theorem divide_result_finite (c : Calculator) (a b : ℤ) (ha : inRange a)
    (hb : inRange b) (h : b ≠ 0) :
    (∃ q : ℚ, c.divide a b = .ok (.finite q)) ∧
    c.divide a b ≠ .ok .nan ∧
    c.divide a b ≠ .ok .posInf ∧
    c.divide a b ≠ .ok .negInf := by
  rw [divide_spec c a b ha hb h]
  exact ⟨⟨_, rfl⟩, by simp, by simp, by simp⟩

/-- C9 witness: `divide(10, 3)` is a finite double. -/
theorem divide_result_finite_witness :
    inRange 10 ∧ inRange 3 ∧ (3 : ℤ) ≠ 0 ∧
    ((∃ q : ℚ, Calculator.mk.divide 10 3 = .ok (.finite q)) ∧
      Calculator.mk.divide 10 3 ≠ .ok .nan ∧
      Calculator.mk.divide 10 3 ≠ .ok .posInf ∧
      Calculator.mk.divide 10 3 ≠ .ok .negInf) :=
  ⟨by decide, by decide, by decide,
    divide_result_finite Calculator.mk 10 3 (by decide) (by decide) (by decide)⟩

/-- C10: division by one is exact: for every 32-bit integer `a`,
`divide(a, 1)` returns exactly the double representing `a`, with no rounding
error (every 32-bit integer fits in the 53-bit significand). -/
theorem divide_by_one_exact (c : Calculator) (a : ℤ) (ha : inRange a) :
    c.divide a 1 = .ok (.finite (a : ℚ)) := by
  rw [divide_spec c a 1 ha (by decide) one_ne_zero]
  norm_num
  exact roundQ_intCast (abs_le.mpr (by unfold inRange at ha; omega))

/-- C10 witness: `divide(-2147483648, 1)` returns exactly `-2147483648.0`. -/
theorem divide_by_one_exact_witness :
    inRange (-2147483648) ∧
    Calculator.mk.divide (-2147483648) 1 =
      .ok (.finite ((-2147483648 : ℤ) : ℚ)) :=
  ⟨by decide, divide_by_one_exact Calculator.mk (-2147483648) (by decide)⟩
